import Mathlib

/-!
Shallow embedding of `allennlp/state_machines/beam_search.py` (class `BeamSearch`).

Python `int` is modelled as `ℤ`, Python `float` scores as `ℚ`, Python dicts
(`defaultdict(list)` and the allowed-transitions map) as insertion-ordered
association lists, and Python's stable `list.sort(key=...)` as a stable
insertion sort on the key.  The collaborators that are not part of the given
sources (`State`, `TransitionFunction`, `util.construct_prefix_tree`) are
modelled from the spec, as marked on each definition.
-/

namespace AllenNLP

/-- Modelled from the spec: a `State` is one or more parallel hypotheses
("group"); `batch_indices`, `score` and `action_history` each hold one entry
per group member.  `finished` models the value of `is_finished()` (meaningful
for singleton groups, which is all the engine ever queries). -/
structure State where
  batch_indices : List ℕ
  score : List ℚ
  action_history : List (List ℕ)
  finished : Bool
deriving DecidableEq, Repr

/-- Modelled from the spec: `combine_states` merges arbitrarily many states
into a single `State` whose group size is the sum of the inputs, preserving
relative order (concatenation of the per-member sequences).  The source calls
it as `states[0].combine_states(states)`; the receiver carries no extra data.
The `finished` flag of a combined (multi-member) group is never consulted by
the engine, so it is set to `false` here. -/
def State.combine_states (states : List State) : State :=
  ⟨(states.map State.batch_indices).flatten,
   (states.map State.score).flatten,
   (states.map State.action_history).flatten,
   false⟩

/-- Modelled from the spec: the transition policy maps
(grouped state, `max_actions`, optional allowed-action restriction) to an
ordered sequence of singleton-group candidate states. -/
abbrev TransitionFunction := State → ℤ → Option (List ℕ) → List State

/-- Lookup in an insertion-ordered association list (Python `dict` access /
`in` test). -/
def dlookup {α : Type} (k : ℕ) : List (ℕ × α) → Option α
  | [] => none
  | (k', v) :: rest => if k' = k then some v else dlookup k rest

/-- Prefix-key lookup in the allowed-transitions map
(Python `key in self._allowed_transitions` / `self._allowed_transitions[key]`). -/
def plookup (k : List ℕ) : List (List ℕ × ℕ) → Option ℕ
  | [] => none
  | (k', v) :: rest => if k' = k then some v else plookup k rest

/-- `defaultdict(list)` mutation `d[k].append(v)`: appends `v` to the list at
key `k`, creating the key (at the end, in insertion order) if absent. -/
def dictAppend (d : List (ℕ × List State)) (k : ℕ) (v : State) : List (ℕ × List State) :=
  match d with
  | [] => [(k, [v])]
  | (k', vs) :: rest => if k' = k then (k', vs ++ [v]) :: rest else (k', vs) :: dictAppend rest k v

/-- `defaultdict(list)` read `d[k]`: returns the updated dict and the value;
a missing key is created (with `[]`) at the end of the iteration order.  This
models the source line `for state in finished_states[0]`. -/
def dictGetDefault (d : List (ℕ × List State)) (k : ℕ) : List (ℕ × List State) × List State :=
  match dlookup k d with
  | some vs => (d, vs)
  | none => (d ++ [(k, [])], [])

/-- Modelled from the spec: `util.construct_prefix_tree` applied to a single
target sequence produces the map whose keys are the prefix tuples of actions
taken so far (including the empty prefix) and whose values are the single next
action permitted at that prefix.  `prefixEntries acc seq` lists the entries
for the suffix `seq` after the already-taken actions `acc`. -/
def prefixEntries : List ℕ → List ℕ → List (List ℕ × ℕ)
  | _, [] => []
  | acc, a :: rest => (acc, a) :: prefixEntries (acc ++ [a]) rest

/-- Modelled from the spec: the allowed-transitions map built from one target
sequence (the engine wraps the sequence as a batch of size one and keeps the
single resulting map). -/
def construct_prefix_tree (seq : List ℕ) : List (List ℕ × ℕ) :=
  prefixEntries [] seq

/-- Source lines 108-113: the allowed-actions restriction for one step.
`if self._allowed_transitions:` is Python truthiness (`None` and the empty
dict are falsy); when the first group member's history is a key of the map,
the restriction is the singleton list holding the stored action. -/
def allowedFor (atr : Option (List (List ℕ × ℕ))) (history : List ℕ) : Option (List ℕ) :=
  match atr with
  | none => none
  | some m =>
    if m = [] then none
    else
      match plookup history m with
      | some a => some [a]
      | none => none

/-- Length kept by the Python slice `l[:k]` for a list of length `len`
(a negative `k` counts from the end, clamped at zero). -/
def pySliceLen (len : ℕ) (k : ℤ) : ℕ :=
  if 0 ≤ k then k.toNat else ((len : ℤ) + k).toNat

/-- Python slice `l[:k]`; always a prefix of `l`. -/
def pySlice {α : Type} (l : List α) (k : ℤ) : List α :=
  l.take (pySliceLen l.length k)

/-- Source line 136: the `(score, action_history)` pair recorded in the beams
log for one candidate (`state.score[0].item(), state.action_history[0]`). -/
def pairOf (s : State) : ℚ × List ℕ := (s.score.headD 0, s.action_history.headD [])

/-- The beams trajectory log (`self.beams`). -/
abbrev Beams := List (List (ℚ × List ℕ))

/-- Source lines 118-127: processing of one candidate produced by
`take_step`.  The accumulator is `(finished_states, next_states)`.  Finished
candidates go to `finished_states`; unfinished ones go to `next_states`, and
additionally to `finished_states` when this is the final permitted step and
`keep_final_unfinished_states` is set. -/
def processCandidate (keep : Bool) (ns sn : ℤ)
    (acc : List (ℕ × List State) × List (ℕ × List State)) (c : State) :
    List (ℕ × List State) × List (ℕ × List State) :=
  if c.finished then (dictAppend acc.1 (c.batch_indices.headD 0) c, acc.2)
  else
    (if sn = ns ∧ keep = true then dictAppend acc.1 (c.batch_indices.headD 0) c else acc.1,
     dictAppend acc.2 (c.batch_indices.headD 0) c)

/-- The `next_states` part of `processCandidate` in isolation: unfinished
candidates grouped by originating batch index, in production order. -/
def partStep (d : List (ℕ × List State)) (c : State) : List (ℕ × List State) :=
  if c.finished then d else dictAppend d (c.batch_indices.headD 0) c

/-- Order-preserving grouping of the unfinished candidates by batch index. -/
def partitionNext (cands : List State) : List (ℕ × List State) :=
  cands.foldl partStep []

/-- Source lines 128-137: the per-batch pruning loop body.  The accumulator is
`(states, beams)`; each batch contributes the first `beam_size` of its
candidates to the new active list and (when the log is enabled) one log entry
holding all of that batch's candidates. -/
def collectNext (b : ℤ) (acc : List State × Option Beams) (entry : ℕ × List State) :
    List State × Option Beams :=
  (acc.1 ++ pySlice entry.2 b,
   match acc.2 with
   | none => none
   | some bs => some (bs ++ [entry.2.map pairOf]))

/-- Source lines 103-117: the single `take_step` invocation of one loop
iteration, with `max_actions = per_node_beam_size` and the allowed-actions
restriction computed from the first group member's history. -/
def stepCandidates (tf : TransitionFunction) (pnbs : ℤ) (atr : Option (List (List ℕ × ℕ)))
    (states : List State) : List State :=
  tf (State.combine_states states) pnbs
    (allowedFor atr ((State.combine_states states).action_history.headD []))

/-- One iteration of the search loop body (source lines 102-137); returns
(new active states, finished states, beams log). -/
def searchStep (tf : TransitionFunction) (keep : Bool) (ns sn b pnbs : ℤ)
    (atr : Option (List (List ℕ × ℕ))) (states : List State)
    (fin : List (ℕ × List State)) (bm : Option Beams) :
    List State × List (ℕ × List State) × Option Beams :=
  let cands := stepCandidates tf pnbs atr states
  let pr := cands.foldl (processCandidate keep ns sn) (fin, [])
  let cl := pr.2.foldl (collectNext b) ([], bm)
  (cl.1, pr.1, cl.2)

/-- Source line 101: `while states and step_num <= num_steps`.  `fuel` bounds
the number of remaining iterations; the top-level call passes
`num_steps.toNat`, which the loop can never exhaust while its guard holds. -/
def searchLoop (tf : TransitionFunction) (keep : Bool) (ns b pnbs : ℤ)
    (atr : Option (List (List ℕ × ℕ))) :
    ℕ → ℤ → List State → List (ℕ × List State) → Option Beams →
    List (ℕ × List State) × Option Beams
  | 0, _, _, fin, bm => (fin, bm)
  | fuel + 1, sn, states, fin, bm =>
    if states = [] ∨ ¬ sn ≤ ns then (fin, bm)
    else
      let r := searchStep tf keep ns sn b pnbs atr states fin bm
      searchLoop tf keep ns b pnbs atr fuel (sn + 1) r.1 r.2.1 r.2.2

/-- Element update at a Python index (negative counts from the end); an
out-of-range index leaves the list unchanged (the source would raise there;
no modelled claim reaches that case). -/
def pyModify (l : Beams) (i : ℤ) (f : List (ℚ × List ℕ) → List (ℚ × List ℕ)) : Beams :=
  let j : ℤ := if 0 ≤ i then i else (l.length : ℤ) + i
  if 0 ≤ j then
    match l.get? j.toNat with
    | some x => l.set j.toNat (f x)
    | none => l
  else l

/-- Source lines 142-149: back-fill of one finished state into the beams log
at depth `len(action_history) - 1`, padding the log with empty entries first. -/
def backfillOne (bs : Beams) (s : State) : Beams :=
  let ah := s.action_history.headD []
  let bs1 := bs ++ List.replicate (ah.length - bs.length) ([] : List (ℚ × List ℕ))
  pyModify bs1 ((ah.length : ℤ) - 1) (fun entry => entry ++ [(s.score.headD 0, ah)])

/-- Source lines 140-149: after the loop, when the log is enabled, the
`finished_states[0]` access creates batch key 0 if absent, and every finished
state of batch 0 is back-filled into the log. -/
def finalPair (fin : List (ℕ × List State)) (bm : Option Beams) :
    List (ℕ × List State) × Option Beams :=
  match bm with
  | none => (fin, none)
  | some bs => ((dictGetDefault fin 0).1, some (((dictGetDefault fin 0).2).foldl backfillOne bs))

/-- Stable insertion (by the first pair component) used to model Python's
stable `list.sort(key=lambda x: x[0])`: an element is placed before the first
existing element whose key is not smaller. -/
def insertPair (a : ℚ × State) : List (ℚ × State) → List (ℚ × State)
  | [] => [a]
  | b :: l => if a.1 ≤ b.1 then a :: b :: l else b :: insertPair a l

/-- Stable sort by the first pair component (Python `list.sort(key=...)`). -/
def sortPairs : List (ℚ × State) → List (ℚ × State)
  | [] => []
  | a :: l => insertPair a (sortPairs l)

/-- Source lines 155-157: rank one batch's finished states by sorting the
pairs `(-score, state)` stably on the first component, truncating to
`beam_size` and projecting the states back out. -/
def rankStates (b : ℤ) (vs : List State) : List State :=
  (pySlice (sortPairs (vs.map (fun s => (-(s.score.headD 0), s)))) b).map (fun p => p.2)

/-- The engine (`BeamSearch.__init__` stores exactly these four attributes). -/
structure BeamSearch where
  _beam_size : ℤ
  _per_node_beam_size : ℤ
  _allowed_transitions : Option (List (List ℕ × ℕ))
  beams : Option Beams
deriving DecidableEq, Repr

/-- Source lines 39-58 (`BeamSearch.__init__`).  `per_node_beam_size or
beam_size` is Python truthiness: `None` and `0` fall back to `beam_size`;
any other value (negative included) is kept.  No validation is performed. -/
def BeamSearch.init (beam_size : ℤ) (per_node_beam_size : Option ℤ)
    (initial_sequence : Option (List ℕ)) (keep_beam_details : Bool) : BeamSearch :=
  ⟨beam_size,
   match per_node_beam_size with
   | none => beam_size
   | some p => if p = 0 then beam_size else p,
   match initial_sequence with
   | none => none
   | some seq => some (construct_prefix_tree seq),
   if keep_beam_details then some [] else none⟩

/-- Source lines 60-64: `constrained_to` builds a fresh engine from the
receiver's beam sizes and the given constraint; the receiver is returned
unchanged (the method never assigns to `self`). -/
def BeamSearch.constrained_to (self : BeamSearch) (initial_sequence : List ℕ)
    (keep_beam_details : Bool) : BeamSearch × BeamSearch :=
  (self,
   BeamSearch.init self._beam_size (some self._per_node_beam_size)
     (some initial_sequence) keep_beam_details)

/-- The search loop run of one `search` call: accumulators start empty, the
step counter starts at 1, and the stored log is cleared (`self.beams.clear()`)
when enabled. -/
def searchRun (e : BeamSearch) (ns : ℤ) (i : State) (tf : TransitionFunction)
    (keep : Bool) : List (ℕ × List State) × Option Beams :=
  searchLoop tf keep ns e._beam_size e._per_node_beam_size e._allowed_transitions
    ns.toNat 1 [i] [] (e.beams.map (fun _ => []))

/-- The finished-states accumulator as it stands at ranking time (after the
diagnostic back-fill touched batch key 0, when the log is enabled). -/
def searchFinishedStates (e : BeamSearch) (ns : ℤ) (i : State)
    (tf : TransitionFunction) (keep : Bool) : List (ℕ × List State) :=
  (finalPair (searchRun e ns i tf keep).1 (searchRun e ns i tf keep).2).1

/-- The beams log left on the engine by one `search` call. -/
def searchBeams (e : BeamSearch) (ns : ℤ) (i : State) (tf : TransitionFunction)
    (keep : Bool) : Option Beams :=
  (finalPair (searchRun e ns i tf keep).1 (searchRun e ns i tf keep).2).2

/-- Source lines 66-158 (`BeamSearch.search`): returns the engine as left
after the call (the `self.beams` mutation made explicit) together with the
mapping from batch index to ranked finished states. -/
def BeamSearch.search (e : BeamSearch) (ns : ℤ) (i : State) (tf : TransitionFunction)
    (keep : Bool) : BeamSearch × List (ℕ × List State) :=
  (⟨e._beam_size, e._per_node_beam_size, e._allowed_transitions, searchBeams e ns i tf keep⟩,
   (searchFinishedStates e ns i tf keep).map (fun q => (q.1, rankStates e._beam_size q.2)))

/-- The head of a singleton state's cumulative score (`state.score[0]`). -/
def headScore (s : State) : ℚ := s.score.headD 0

/-- The new active list computed by one loop iteration: for each batch index,
in first-production order, the first `beam_size` unfinished candidates. -/
def nextActive (tf : TransitionFunction) (b pnbs : ℤ) (atr : Option (List (List ℕ × ℕ)))
    (states : List State) : List State :=
  ((partitionNext (stepCandidates tf pnbs atr states)).map (fun p => pySlice p.2 b)).flatten

/-- The (keep-independent) active-state list entering step `k + 1`. -/
def activeIter (tf : TransitionFunction) (b pnbs : ℤ) (atr : Option (List (List ℕ × ℕ)))
    (i : State) : ℕ → List State
  | 0 => [i]
  | k + 1 =>
    let prev := activeIter tf b pnbs atr i k
    if prev = [] then [] else nextActive tf b pnbs atr prev

/-- A singleton-group state used in concrete runs. -/
def mkSt (bi : ℕ) (q : ℚ) (h : List ℕ) (b : Bool) : State := ⟨[bi], [q], [h], b⟩

/-- A concrete initial state. -/
def st0 : State := mkSt 0 0 [] false

/-- A transition policy producing one unfinished candidate in each of two
batch indices. -/
def tfTwoBatch : TransitionFunction := fun _ _ _ => [mkSt 0 0 [0] false, mkSt 1 0 [1] false]

/-- A transition policy producing no candidates. -/
def tfEmpty : TransitionFunction := fun _ _ _ => []

/-- A transition policy producing a single finished candidate. -/
def tfFinish : TransitionFunction := fun _ _ _ => [mkSt 0 5 [0] true]

/-- A transition policy producing three finished candidates with a score tie. -/
def tfScores : TransitionFunction := fun _ _ _ =>
  [mkSt 0 3 [1] true, mkSt 0 3 [2] true, mkSt 0 7 [3] true]

/-- A transition policy that differs from `tfTwoBatch` away from
`max_actions = 2` but agrees with it there. -/
def tfTwoBatchAlt : TransitionFunction := fun _ m _ =>
  if m = 2 then [mkSt 0 0 [0] false, mkSt 1 0 [1] false] else []

theorem dlookup_append {α : Type} (k : ℕ) (l₁ l₂ : List (ℕ × α)) :
    dlookup k (l₁ ++ l₂) =
      match dlookup k l₁ with
      | some v => some v
      | none => dlookup k l₂ := by
  induction l₁ with
  | nil => simp [dlookup]
  | cons p rest ih =>
    obtain ⟨k', v⟩ := p
    by_cases h : k' = k <;> simp [dlookup, h, ih]

theorem dlookup_dictAppend (d : List (ℕ × List State)) (k k' : ℕ) (v : State) :
    dlookup k' (dictAppend d k v) =
      if k = k' then some ((dlookup k' d).getD [] ++ [v]) else dlookup k' d := by
  induction d with
  | nil =>
    by_cases h : k = k' <;> simp [dictAppend, dlookup, h]
  | cons p rest ih =>
    obtain ⟨k₀, vs⟩ := p
    by_cases h0 : k₀ = k
    · subst h0
      by_cases h1 : k₀ = k' <;> simp [dictAppend, dlookup, h1]
    · by_cases h1 : k₀ = k'
      · subst h1
        have : ¬ k = k₀ := fun h => h0 h.symm
        simp [dictAppend, dlookup, h0, this]
      · simp [dictAppend, dlookup, h0, h1, ih]

theorem dlookup_mapVal (g : List State → List State) (k : ℕ)
    (l : List (ℕ × List State)) :
    dlookup k (l.map (fun q => (q.1, g q.2))) = (dlookup k l).map g := by
  induction l with
  | nil => simp [dlookup]
  | cons p rest ih =>
    obtain ⟨k', vs⟩ := p
    by_cases h : k' = k <;> simp [dlookup, h, ih]

theorem dlookup_dictGetDefault_self (d : List (ℕ × List State)) (k : ℕ) :
    dlookup k (dictGetDefault d k).1 = some ((dlookup k d).getD []) := by
  unfold dictGetDefault
  cases h : dlookup k d with
  | some vs => simp [h]
  | none => simp [h, dlookup_append, dlookup]

theorem processFold_snd (cands : List State) (keep : Bool) (ns sn : ℤ)
    (fin nx : List (ℕ × List State)) :
    (cands.foldl (processCandidate keep ns sn) (fin, nx)).2 = cands.foldl partStep nx := by
  induction cands generalizing fin nx with
  | nil => rfl
  | cons c rest ih =>
    simp only [List.foldl_cons]
    by_cases hc : c.finished <;> simp [processCandidate, partStep, hc, ih]

theorem processFold_keep_eq (cands : List State) (ns sn : ℤ)
    (acc : List (ℕ × List State) × List (ℕ × List State))
    (H : sn = ns → ∀ c ∈ cands, c.finished = true) :
    cands.foldl (processCandidate true ns sn) acc =
      cands.foldl (processCandidate false ns sn) acc := by
  induction cands generalizing acc with
  | nil => rfl
  | cons c rest ih =>
    simp only [List.foldl_cons]
    have hstep : processCandidate true ns sn acc c = processCandidate false ns sn acc c := by
      by_cases hc : c.finished
      · simp [processCandidate, hc]
      · have hsn : ¬ sn = ns := by
          intro h
          exact hc (H h c (by simp))
        simp [processCandidate, hc, hsn]
    rw [hstep]
    exact ih _ (fun h c hc => H h c (by simp [hc]))

theorem collectFold_fst (nexts : List (ℕ × List State)) (b : ℤ) (acc : List State)
    (bm : Option Beams) :
    (nexts.foldl (collectNext b) (acc, bm)).1 =
      acc ++ (nexts.map (fun p => pySlice p.2 b)).flatten := by
  induction nexts generalizing acc bm with
  | nil => simp
  | cons p rest ih =>
    simp only [List.foldl_cons, collectNext, List.map_cons, List.flatten_cons]
    rw [ih]
    simp [List.append_assoc]

theorem collectFold_snd (nexts : List (ℕ × List State)) (b : ℤ) (acc : List State)
    (bm : Option Beams) :
    (nexts.foldl (collectNext b) (acc, bm)).2 =
      bm.map (fun bs => bs ++ nexts.map (fun p => p.2.map pairOf)) := by
  induction nexts generalizing acc bm with
  | nil => cases bm <;> simp
  | cons p rest ih =>
    cases bm with
    | none =>
      simp only [List.foldl_cons, collectNext]
      rw [ih]
      rfl
    | some bs =>
      simp only [List.foldl_cons, collectNext]
      rw [ih]
      simp

theorem searchStep_states (tf : TransitionFunction) (keep : Bool) (ns sn b pnbs : ℤ)
    (atr : Option (List (List ℕ × ℕ))) (states : List State)
    (fin : List (ℕ × List State)) (bm : Option Beams) :
    (searchStep tf keep ns sn b pnbs atr states fin bm).1 = nextActive tf b pnbs atr states := by
  unfold searchStep nextActive
  dsimp only
  rw [processFold_snd, collectFold_fst]
  rfl

theorem searchStep_beams (tf : TransitionFunction) (keep : Bool) (ns sn b pnbs : ℤ)
    (atr : Option (List (List ℕ × ℕ))) (states : List State)
    (fin : List (ℕ × List State)) (bm : Option Beams) :
    (searchStep tf keep ns sn b pnbs atr states fin bm).2.2 =
      bm.map (fun bs =>
        bs ++ (partitionNext (stepCandidates tf pnbs atr states)).map (fun p => p.2.map pairOf)) := by
  unfold searchStep
  dsimp only
  rw [processFold_snd, collectFold_snd]
  rfl

theorem partitionFold_dlookup (cands : List State) (d : List (ℕ × List State)) (bi : ℕ) :
    (dlookup bi (cands.foldl partStep d)).getD [] =
      (dlookup bi d).getD [] ++
        cands.filter (fun c => !c.finished && (c.batch_indices.headD 0 == bi)) := by
  induction cands generalizing d with
  | nil => simp
  | cons c rest ih =>
    simp only [List.foldl_cons, List.filter_cons]
    by_cases hc : c.finished
    · simp [partStep, hc, ih]
    · have hp : partStep d c = dictAppend d (c.batch_indices.headD 0) c := by
        simp [partStep, hc]
      rw [hp, ih, dlookup_dictAppend]
      by_cases hb : c.batch_indices.head?.getD 0 = bi <;> simp [hb, hc]

theorem searchLoop_beams_isSome (tf : TransitionFunction) (keep : Bool) (ns b pnbs : ℤ)
    (atr : Option (List (List ℕ × ℕ))) (fuel : ℕ) (sn : ℤ) (states : List State)
    (fin : List (ℕ × List State)) (bm : Option Beams) :
    ((searchLoop tf keep ns b pnbs atr fuel sn states fin bm).2).isSome = bm.isSome := by
  induction fuel generalizing sn states fin bm with
  | zero => rfl
  | succ n ih =>
    simp only [searchLoop]
    split
    · rfl
    · rw [ih, searchStep_beams]
      cases bm <;> rfl

theorem finalPair_snd_isSome (fin : List (ℕ × List State)) (bm : Option Beams) :
    ((finalPair fin bm).2).isSome = bm.isSome := by
  cases bm <;> rfl

theorem mem_insertPair (x a : ℚ × State) (l : List (ℚ × State)) :
    x ∈ insertPair a l ↔ x = a ∨ x ∈ l := by
  induction l with
  | nil => simp [insertPair]
  | cons b rest ih =>
    by_cases h : a.1 ≤ b.1
    · simp [insertPair, h, ih]
    · simp [insertPair, h, ih]
      tauto

theorem mem_sortPairs (x : ℚ × State) (l : List (ℚ × State)) :
    x ∈ sortPairs l ↔ x ∈ l := by
  induction l with
  | nil => simp [sortPairs]
  | cons a rest ih => simp [sortPairs, mem_insertPair, ih]

theorem pairwise_insertPair (a : ℚ × State) (l : List (ℚ × State))
    (h : l.Pairwise (fun p q => p.1 ≤ q.1)) :
    (insertPair a l).Pairwise (fun p q => p.1 ≤ q.1) := by
  induction l with
  | nil => simp [insertPair]
  | cons b rest ih =>
    rw [List.pairwise_cons] at h
    obtain ⟨h1, h2⟩ := h
    by_cases hab : a.1 ≤ b.1
    · simp only [insertPair, if_pos hab]
      rw [List.pairwise_cons]
      refine ⟨?_, ?_⟩
      · intro x hx
        rcases List.mem_cons.mp hx with hx | hx
        · exact hx ▸ hab
        · exact le_trans hab (h1 x hx)
      · rw [List.pairwise_cons]
        exact ⟨h1, h2⟩
    · simp only [insertPair, if_neg hab]
      rw [List.pairwise_cons]
      refine ⟨?_, ih h2⟩
      intro x hx
      rcases (mem_insertPair x a rest).mp hx with hx | hx
      · exact hx ▸ le_of_lt (lt_of_not_le hab)
      · exact h1 x hx

theorem pairwise_sortPairs (l : List (ℚ × State)) :
    (sortPairs l).Pairwise (fun p q => p.1 ≤ q.1) := by
  induction l with
  | nil => simp [sortPairs]
  | cons a rest ih => exact pairwise_insertPair a _ ih

theorem filter_insertPair (q : ℚ) (a : ℚ × State) (l : List (ℚ × State)) :
    (insertPair a l).filter (fun p => p.1 == q) =
      if a.1 = q then a :: l.filter (fun p => p.1 == q)
      else l.filter (fun p => p.1 == q) := by
  induction l with
  | nil => by_cases h : a.1 = q <;> simp [insertPair, h]
  | cons b rest ih =>
    by_cases hab : a.1 ≤ b.1
    · simp only [insertPair, if_pos hab]
      by_cases h : a.1 = q <;> simp [List.filter_cons, h]
    · have hlt : b.1 < a.1 := lt_of_not_le hab
      simp only [insertPair, if_neg hab, List.filter_cons, ih]
      by_cases h : a.1 = q
      · have hbq : ¬ (b.1 = q) := by
          rw [← h]
          exact ne_of_lt hlt
        simp [h, hbq]
      · by_cases hbq : b.1 = q <;> simp [h, hbq]

theorem filter_sortPairs (q : ℚ) (l : List (ℚ × State)) :
    (sortPairs l).filter (fun p => p.1 == q) = l.filter (fun p => p.1 == q) := by
  induction l with
  | nil => rfl
  | cons a rest ih =>
    simp only [sortPairs, filter_insertPair, ih, List.filter_cons]
    by_cases h : a.1 = q <;> simp [h]

theorem neg_beq_neg (a c : ℚ) : ((-a) == (-c)) = (a == c) := by
  by_cases h : a = c
  · simp [h]
  · have h' : ¬ (-a = -c) := fun hh => h (neg_inj.mp hh)
    simp [h, h']

theorem sortPairs_key (vs : List State) (p : ℚ × State)
    (hp : p ∈ sortPairs (vs.map (fun s => (-(s.score.headD 0), s)))) :
    p.1 = -(headScore p.2) := by
  rw [mem_sortPairs] at hp
  obtain ⟨s, _, rfl⟩ := List.mem_map.mp hp
  rfl

theorem rankStates_length (b : ℤ) (vs : List State) (hb : 0 ≤ b) :
    ((rankStates b vs).length : ℤ) ≤ b := by
  unfold rankStates pySlice pySliceLen
  rw [if_pos hb]
  simp only [List.length_map, List.length_take]
  have h1 : min b.toNat (sortPairs (vs.map fun s => (-(s.score.headD 0), s))).length ≤ b.toNat :=
    Nat.min_le_left _ _
  have h2 : (b.toNat : ℤ) = b := Int.toNat_of_nonneg hb
  omega

theorem rankStates_sorted (b : ℤ) (vs : List State) :
    (rankStates b vs).Pairwise (fun s t => headScore t ≤ headScore s) := by
  unfold rankStates
  rw [List.pairwise_map]
  have hsorted := pairwise_sortPairs (vs.map fun s => (-(s.score.headD 0), s))
  have hslice : (pySlice (sortPairs (vs.map fun s => (-(s.score.headD 0), s))) b).Pairwise
      (fun p q => p.1 ≤ q.1) :=
    List.Pairwise.sublist (List.take_sublist _ _) hsorted
  refine hslice.imp_of_mem ?_
  intro p q hp hq hle
  have hp' : p.1 = -(headScore p.2) :=
    sortPairs_key vs p ((List.take_sublist _ _).subset hp)
  have hq' : q.1 = -(headScore q.2) :=
    sortPairs_key vs q ((List.take_sublist _ _).subset hq)
  rw [hp', hq'] at hle
  exact neg_le_neg_iff.mp hle

theorem rankStates_stable (b : ℤ) (vs : List State) (q : ℚ) :
    ∃ t, (rankStates b vs).filter (fun s => headScore s == q) ++ t =
      vs.filter (fun s => headScore s == q) := by
  refine ⟨(((sortPairs (vs.map fun s => (-(s.score.headD 0), s))).drop
      (pySliceLen (sortPairs (vs.map fun s => (-(s.score.headD 0), s))).length b)).filter
      (fun p => p.1 == -q)).map (fun p => p.2), ?_⟩
  have h1 : (rankStates b vs).filter (fun s => headScore s == q) =
      ((pySlice (sortPairs (vs.map fun s => (-(s.score.headD 0), s))) b).filter
        (fun p => p.1 == -q)).map (fun p => p.2) := by
    unfold rankStates
    rw [List.filter_map]
    congr 1
    apply List.filter_congr
    intro p hp
    have hk : p.1 = -(headScore p.2) :=
      sortPairs_key vs p ((List.take_sublist _ _).subset hp)
    show (headScore p.2 == q) = (p.1 == -q)
    rw [hk, neg_beq_neg]
  rw [h1, ← List.map_append, ← List.filter_append]
  have hsd : pySlice (sortPairs (vs.map fun s => (-(s.score.headD 0), s))) b ++
      (sortPairs (vs.map fun s => (-(s.score.headD 0), s))).drop
        (pySliceLen (sortPairs (vs.map fun s => (-(s.score.headD 0), s))).length b) =
      sortPairs (vs.map fun s => (-(s.score.headD 0), s)) := by
    unfold pySlice
    exact List.take_append_drop _ _
  rw [hsd, filter_sortPairs, List.filter_map]
  have hcong : vs.filter ((fun p : ℚ × State => p.1 == -q) ∘ (fun s => (-(s.score.headD 0), s))) =
      vs.filter (fun s => headScore s == q) := by
    apply List.filter_congr
    intro s _
    show ((-(s.score.headD 0) : ℚ) == -q) = (headScore s == q)
    rw [neg_beq_neg]
    rfl
  rw [hcong, List.map_map]
  have hid : ((fun p : ℚ × State => p.2) ∘ (fun s => (-(s.score.headD 0), s))) = id := rfl
  rw [hid, List.map_id]

theorem rankStates_nil (b : ℤ) : rankStates b [] = [] := by
  simp [rankStates, sortPairs, pySlice]

theorem option_map_const {α β : Type} (x : β) (a c : Option α) (h : a.isSome = c.isSome) :
    a.map (fun _ => x) = c.map (fun _ => x) := by
  cases a <;> cases c <;> simp_all

theorem search_beams_input_irrel (b p : ℤ) (a : Option (List (List ℕ × ℕ)))
    (bm₁ bm₂ : Option Beams) (ns : ℤ) (i : State) (tf : TransitionFunction) (keep : Bool)
    (h : bm₁.isSome = bm₂.isSome) :
    BeamSearch.search ⟨b, p, a, bm₁⟩ ns i tf keep =
      BeamSearch.search ⟨b, p, a, bm₂⟩ ns i tf keep := by
  have hrun : searchRun ⟨b, p, a, bm₁⟩ ns i tf keep = searchRun ⟨b, p, a, bm₂⟩ ns i tf keep := by
    unfold searchRun
    rw [option_map_const _ _ _ h]
  unfold BeamSearch.search searchFinishedStates searchBeams
  rw [hrun]

/-- C3: at every step the transition policy is invoked with the restriction
computed by `allowedFor`: when a constraint map exists (it does whenever the
engine was constructed with an `initial_sequence`) and the first group
member's history is one of its keys, the restriction is exactly the singleton
list holding the action stored for that prefix; with no constraint map, or
when the history is not a key, no restriction is passed — and all of these
cases are ordinary (total) behaviour, not errors. -/
theorem allowed_actions_cases :
    (∀ (m : List (List ℕ × ℕ)) (hist : List ℕ) (a : ℕ),
        plookup hist m = some a → allowedFor (some m) hist = some [a]) ∧
    (∀ hist : List ℕ, allowedFor none hist = none) ∧
    (∀ (m : List (List ℕ × ℕ)) (hist : List ℕ),
        plookup hist m = none → allowedFor (some m) hist = none) ∧
    (∀ (b : ℤ) (p : Option ℤ) (seq : List ℕ) (k : Bool),
        (BeamSearch.init b p (some seq) k)._allowed_transitions =
          some (construct_prefix_tree seq)) ∧
    (∀ (tf : TransitionFunction) (pnbs : ℤ) (atr : Option (List (List ℕ × ℕ)))
        (states : List State),
        stepCandidates tf pnbs atr states =
          tf (State.combine_states states) pnbs
            (allowedFor atr ((State.combine_states states).action_history.headD []))) := by
  refine ⟨?_, ?_, ?_, ?_, ?_⟩
  · intro m hist a h
    by_cases hm : m = []
    · subst hm
      simp [plookup] at h
    · simp [allowedFor, hm, h]
  · intro hist
    rfl
  · intro m hist h
    by_cases hm : m = []
    · simp [allowedFor, hm]
    · simp [allowedFor, hm, h]
  · intro b p seq k
    rfl
  · intro tf pnbs atr states
    rfl

/-- Witness for C3 at concrete inputs: with the constraint map built from the
sequence `[5, 7]`, the prefix `[5]` forces the single action `7`; with no map
or an unknown prefix, no restriction is produced. -/
theorem allowed_actions_cases_witness :
    allowedFor (some (construct_prefix_tree [5, 7])) [5] = some [7] ∧
    allowedFor none [5] = none ∧
    allowedFor (some (construct_prefix_tree [5, 7])) [9] = none :=
  ⟨allowed_actions_cases.1 _ [5] 7 (by decide),
   allowed_actions_cases.2.1 [5],
   allowed_actions_cases.2.2.1 _ [9] (by decide)⟩

/-- C4 counterexample: no configuration validation happens.  Constructing
with `per_node_beam_size = 0` succeeds and silently replaces the value by
`beam_size` (Python `per_node_beam_size or beam_size`), and a `search` call
with `num_steps = 0` returns normally (the empty mapping) instead of failing. -/
theorem validation_counterexample :
    BeamSearch.init 3 (some 0) none false =
      (⟨3, 3, none, none⟩ : BeamSearch) ∧
    ((BeamSearch.init 2 none none false).search 0 st0 tfEmpty true).2 = [] := by
  constructor
  · rfl
  · rfl

/-- C4 (amended): invalid configuration is not rejected.  `per_node_beam_size
= 0` is silently clamped to `beam_size`, any non-zero value (negative
included) is kept, and `num_steps ≤ 0` makes `search` return normally with no
finished states (just the key-0 stub when diagnostics are enabled). -/
theorem no_validation_behavior :
    (∀ (b : ℤ) (s : Option (List ℕ)) (k : Bool),
        (BeamSearch.init b (some 0) s k)._per_node_beam_size = b) ∧
    (∀ (b p : ℤ) (s : Option (List ℕ)) (k : Bool), p ≠ 0 →
        (BeamSearch.init b (some p) s k)._per_node_beam_size = p) ∧
    (∀ (e : BeamSearch) (ns : ℤ) (i : State) (tf : TransitionFunction) (keep : Bool),
        ns ≤ 0 →
        (e.search ns i tf keep).2 = if e.beams.isSome then [(0, [])] else []) := by
  refine ⟨?_, ?_, ?_⟩
  · intro b s k
    rfl
  · intro b p s k hp
    simp [BeamSearch.init, hp]
  · intro e ns i tf keep hns
    have h0 : ns.toNat = 0 := by omega
    unfold BeamSearch.search searchFinishedStates searchBeams searchRun
    rw [h0]
    cases hb : e.beams with
    | none => rfl
    | some bs => simp [searchLoop, finalPair, dictGetDefault, dlookup, rankStates_nil]

/-- Witness for C4's amended claim at concrete inputs. -/
theorem no_validation_behavior_witness :
    (BeamSearch.init 5 (some 0) none false)._per_node_beam_size = 5 ∧
    (BeamSearch.init 5 (some (-2)) none false)._per_node_beam_size = -2 ∧
    ((BeamSearch.init 5 none none true).search (-1) st0 tfEmpty true).2 =
      (if (BeamSearch.init 5 none none true).beams.isSome then [(0, [])] else []) :=
  ⟨no_validation_behavior.1 5 none false,
   no_validation_behavior.2.1 5 (-2) none false (by decide),
   no_validation_behavior.2.2 (BeamSearch.init 5 none none true) (-1) st0 tfEmpty true
     (by decide)⟩

/-- C5 counterexample: with diagnostics enabled, one search step over
candidates in two batch indices leaves TWO log entries (one per batch index,
each holding only that batch's candidates) although only ONE step completed —
refuting "exactly one entry per completed step, all batch indices lumped
together". -/
theorem beams_per_step_counterexample :
    ((BeamSearch.init 2 none none true).search 1 st0 tfTwoBatch false).1.beams =
      some [[((0 : ℚ), [0])], [((0 : ℚ), [1])]] := by
  rfl

/-- C5 (amended): during the loop, each completed step appends one log entry
PER BATCH INDEX that has unfinished continuation candidates (in first-
production order), and each entry holds only that batch's candidates; for a
single batch index this degenerates to one entry per step. -/
theorem beams_log_per_batch_entry (tf : TransitionFunction) (keep : Bool)
    (ns sn b pnbs : ℤ) (atr : Option (List (List ℕ × ℕ))) (states : List State)
    (fin : List (ℕ × List State)) (bm : Option Beams) :
    (searchStep tf keep ns sn b pnbs atr states fin bm).2.2 =
      bm.map (fun bs =>
        bs ++ (partitionNext (stepCandidates tf pnbs atr states)).map
          (fun p => p.2.map pairOf)) :=
  searchStep_beams tf keep ns sn b pnbs atr states fin bm

/-- C7: running `search` a second time on the engine returned by a first call,
with identical arguments, returns exactly the first call's output (engine
state included): each call clears the log and re-initializes its accumulators,
so no state leaks between calls. -/
theorem search_idempotent (e : BeamSearch) (ns : ℤ) (i : State) (tf : TransitionFunction)
    (keep : Bool) :
    ((e.search ns i tf keep).1).search ns i tf keep = e.search ns i tf keep := by
  obtain ⟨b, p, a, bm⟩ := e
  have hbm : (searchBeams ⟨b, p, a, bm⟩ ns i tf keep).isSome = bm.isSome := by
    unfold searchBeams
    rw [finalPair_snd_isSome]
    unfold searchRun
    rw [searchLoop_beams_isSome]
    simp
  exact search_beams_input_irrel b p a _ bm ns i tf keep hbm

/-- C8: one loop iteration consumes a single `take_step` invocation, made
with `max_actions = per_node_beam_size` and the computed restriction (any
policy agreeing with `tf` at that single point yields the identical step
outcome); the new active list is, per batch index in first-production order,
the first `beam_size` unfinished candidates exactly as the policy produced
them (an order-preserving filter and grouping, with no re-sorting). -/
theorem step_single_invocation (tf : TransitionFunction) (keep : Bool)
    (ns sn b pnbs : ℤ) (atr : Option (List (List ℕ × ℕ))) (states : List State)
    (fin : List (ℕ × List State)) (bm : Option Beams) :
    ((searchStep tf keep ns sn b pnbs atr states fin bm).1 =
      ((partitionNext (stepCandidates tf pnbs atr states)).map
        (fun p => pySlice p.2 b)).flatten) ∧
    (∀ bi : ℕ,
      (dlookup bi (partitionNext (stepCandidates tf pnbs atr states))).getD [] =
        (stepCandidates tf pnbs atr states).filter
          (fun c => !c.finished && (c.batch_indices.headD 0 == bi))) ∧
    (∀ tf' : TransitionFunction,
      tf' (State.combine_states states) pnbs
          (allowedFor atr ((State.combine_states states).action_history.headD [])) =
        stepCandidates tf pnbs atr states →
      searchStep tf' keep ns sn b pnbs atr states fin bm =
        searchStep tf keep ns sn b pnbs atr states fin bm) := by
  refine ⟨?_, ?_, ?_⟩
  · rw [searchStep_states]
    rfl
  · intro bi
    have h := partitionFold_dlookup (stepCandidates tf pnbs atr states) [] bi
    simpa [partitionNext, dlookup] using h
  · intro tf' h
    have hc : stepCandidates tf' pnbs atr states = stepCandidates tf pnbs atr states := h
    unfold searchStep
    rw [hc]

/-- Witness for C8: a policy that differs from `tfTwoBatch` elsewhere but
agrees with it at the single invocation point produces the identical step
outcome. -/
theorem step_single_invocation_witness :
    searchStep tfTwoBatchAlt false 1 1 2 2 none [st0] [] none =
      searchStep tfTwoBatch false 1 1 2 2 none [st0] [] none :=
  (step_single_invocation tfTwoBatch false 1 1 2 2 none [st0] [] none).2.2
    tfTwoBatchAlt (by decide)

/-- C9: `constrained_to` leaves the receiver untouched and returns a fresh
engine with the receiver's beam sizes, the constraint map built from the
given sequence, and (with the default `keep_beam_details = true`) diagnostics
enabled. -/
theorem constrained_to_spec (b : ℤ) (p : Option ℤ) (s : Option (List ℕ)) (k : Bool)
    (seq : List ℕ) (kbd : Bool) :
    ((BeamSearch.init b p s k).constrained_to seq kbd).1 = BeamSearch.init b p s k ∧
    ((BeamSearch.init b p s k).constrained_to seq kbd).2._beam_size =
      (BeamSearch.init b p s k)._beam_size ∧
    ((BeamSearch.init b p s k).constrained_to seq kbd).2._per_node_beam_size =
      (BeamSearch.init b p s k)._per_node_beam_size ∧
    ((BeamSearch.init b p s k).constrained_to seq kbd).2._allowed_transitions =
      some (construct_prefix_tree seq) ∧
    ((BeamSearch.init b p s k).constrained_to seq true).2.beams = some [] := by
  refine ⟨rfl, rfl, ?_, rfl, rfl⟩
  show (BeamSearch.init b (some (BeamSearch.init b p s k)._per_node_beam_size) (some seq)
      kbd)._per_node_beam_size = (BeamSearch.init b p s k)._per_node_beam_size
  cases p with
  | none =>
    by_cases hb : b = 0 <;> simp [BeamSearch.init, hb]
  | some v =>
    by_cases hv : v = 0
    · by_cases hb : b = 0 <;> simp [BeamSearch.init, hv, hb]
    · simp [BeamSearch.init, hv]

/-- C10: with diagnostics enabled, the post-loop back-fill reads
`finished_states[0]` from a `defaultdict`, creating batch key 0; hence the
returned mapping always contains key 0 (mapped to `[]` when batch 0 has no
finished or retained state).  An otherwise identical engine without
diagnostics can return a mapping without that key, as the concrete second
conjunct shows. -/
theorem diagnostics_adds_batch_zero_key :
    (∀ (e : BeamSearch) (ns : ℤ) (i : State) (tf : TransitionFunction) (keep : Bool),
        e.beams.isSome = true →
        (dlookup 0 ((e.search ns i tf keep).2)).isSome = true ∧
        (dlookup 0 (searchRun e ns i tf keep).1 = none →
          dlookup 0 ((e.search ns i tf keep).2) = some [])) ∧
    dlookup 0 (((BeamSearch.init 1 none none false).search 1 st0 tfEmpty true).2) = none := by
  constructor
  · intro e ns i tf keep hb
    have hrun : ((searchRun e ns i tf keep).2).isSome = true := by
      unfold searchRun
      rw [searchLoop_beams_isSome]
      simpa using hb
    obtain ⟨bs, hbs⟩ := Option.isSome_iff_exists.mp hrun
    have hfin : searchFinishedStates e ns i tf keep =
        (dictGetDefault (searchRun e ns i tf keep).1 0).1 := by
      unfold searchFinishedStates finalPair
      rw [hbs]
    have hl0 : dlookup 0 (searchFinishedStates e ns i tf keep) =
        some ((dlookup 0 (searchRun e ns i tf keep).1).getD []) := by
      rw [hfin]
      exact dlookup_dictGetDefault_self _ 0
    constructor
    · show (dlookup 0 ((searchFinishedStates e ns i tf keep).map
          (fun q => (q.1, rankStates e._beam_size q.2)))).isSome = true
      rw [dlookup_mapVal, hl0]
      rfl
    · intro hnone
      show dlookup 0 ((searchFinishedStates e ns i tf keep).map
          (fun q => (q.1, rankStates e._beam_size q.2))) = some []
      rw [dlookup_mapVal, hl0, hnone]
      simp [rankStates_nil]
  · rfl

/-- Witness for C10: a diagnostics-enabled engine returns batch key 0 even
though nothing was explored into it. -/
theorem diagnostics_adds_batch_zero_key_witness :
    (dlookup 0 (((BeamSearch.init 1 none none true).search 1 st0 tfEmpty true).2)).isSome = true :=
  (diagnostics_adds_batch_zero_key.1 (BeamSearch.init 1 none none true) 1 st0 tfEmpty true
    rfl).1

/-- C1: under the documented precondition that `beam_size` is non-negative,
every per-batch list in the returned mapping has length at most `beam_size`
(the final ranking is truncated by `[:beam_size]`). -/
theorem search_result_length_le_beam_size (e : BeamSearch) (ns : ℤ) (i : State)
    (tf : TransitionFunction) (keep : Bool) (hb : 0 ≤ e._beam_size) (bi : ℕ) (l : List State)
    (hl : dlookup bi ((e.search ns i tf keep).2) = some l) :
    (l.length : ℤ) ≤ e._beam_size := by
  have hm : (dlookup bi (searchFinishedStates e ns i tf keep)).map
      (rankStates e._beam_size) = some l := by
    rw [← dlookup_mapVal]
    exact hl
  cases hf : dlookup bi (searchFinishedStates e ns i tf keep) with
  | none =>
    rw [hf] at hm
    simp at hm
  | some vs =>
    rw [hf] at hm
    have hm2 : some (rankStates e._beam_size vs) = some l := hm
    have hl2 : rankStates e._beam_size vs = l := by injection hm2
    rw [← hl2]
    exact rankStates_length e._beam_size vs hb

/-- Witness for C1 at a concrete run (beam size 2, three finished states). -/
theorem search_result_length_le_beam_size_witness :
    (([mkSt 0 7 [3] true, mkSt 0 3 [1] true] : List State).length : ℤ) ≤
      (BeamSearch.init 2 none none false)._beam_size :=
  search_result_length_le_beam_size (BeamSearch.init 2 none none false) 1 st0 tfScores true
    (by decide) 0 [mkSt 0 7 [3] true, mkSt 0 3 [1] true] (by decide)

/-- C2: every returned per-batch list is sorted by non-increasing score, and
for every score value the returned states with that score form a prefix of
the states with that score in the batch's finished accumulator, i.e. ties are
kept in discovery order (Python's sort is stable and the sort key is exactly
`-score`). -/
theorem search_result_sorted_stable (e : BeamSearch) (ns : ℤ) (i : State)
    (tf : TransitionFunction) (keep : Bool) (bi : ℕ) (l : List State)
    (hl : dlookup bi ((e.search ns i tf keep).2) = some l) :
    l.Pairwise (fun s t => headScore t ≤ headScore s) ∧
    ∀ q : ℚ, ∃ t', l.filter (fun s => headScore s == q) ++ t' =
      ((dlookup bi (searchFinishedStates e ns i tf keep)).getD []).filter
        (fun s => headScore s == q) := by
  have hm : (dlookup bi (searchFinishedStates e ns i tf keep)).map
      (rankStates e._beam_size) = some l := by
    rw [← dlookup_mapVal]
    exact hl
  cases hf : dlookup bi (searchFinishedStates e ns i tf keep) with
  | none =>
    rw [hf] at hm
    simp at hm
  | some vs =>
    rw [hf] at hm
    have hm2 : some (rankStates e._beam_size vs) = some l := hm
    have hl2 : rankStates e._beam_size vs = l := by injection hm2
    constructor
    · rw [← hl2]
      exact rankStates_sorted e._beam_size vs
    · intro q
      rw [← hl2]
      simpa using rankStates_stable e._beam_size vs q

/-- Witness for C2 at a concrete run with a score tie: scores come back as
7, 3 (non-increasing) and the tied-score states keep discovery order. -/
theorem search_result_sorted_stable_witness :
    ([mkSt 0 7 [3] true, mkSt 0 3 [1] true] : List State).Pairwise
      (fun s t => headScore t ≤ headScore s) ∧
    ∃ t', ([mkSt 0 7 [3] true, mkSt 0 3 [1] true] : List State).filter
        (fun s => headScore s == 3) ++ t' =
      ((dlookup 0 (searchFinishedStates (BeamSearch.init 2 none none false) 1 st0 tfScores
        true)).getD []).filter (fun s => headScore s == 3) :=
  ⟨(search_result_sorted_stable (BeamSearch.init 2 none none false) 1 st0 tfScores true 0
      [mkSt 0 7 [3] true, mkSt 0 3 [1] true] (by decide)).1,
   (search_result_sorted_stable (BeamSearch.init 2 none none false) 1 st0 tfScores true 0
      [mkSt 0 7 [3] true, mkSt 0 3 [1] true] (by decide)).2 3⟩

theorem activeIter_succ_ne (tf : TransitionFunction) (b pnbs : ℤ)
    (atr : Option (List (List ℕ × ℕ))) (i : State) (k : ℕ)
    (h : activeIter tf b pnbs atr i k ≠ []) :
    activeIter tf b pnbs atr i (k + 1) =
      nextActive tf b pnbs atr (activeIter tf b pnbs atr i k) := by
  simp [activeIter, h]

theorem searchLoop_keep_eq (tf : TransitionFunction) (ns b pnbs : ℤ)
    (atr : Option (List (List ℕ × ℕ))) (i : State)
    (H : activeIter tf b pnbs atr i (ns - 1).toNat ≠ [] →
      ∀ c ∈ stepCandidates tf pnbs atr (activeIter tf b pnbs atr i (ns - 1).toNat),
        c.finished = true) :
    ∀ (fuel k : ℕ) (fin : List (ℕ × List State)) (bm : Option Beams),
      searchLoop tf true ns b pnbs atr fuel ((k : ℤ) + 1)
        (activeIter tf b pnbs atr i k) fin bm =
      searchLoop tf false ns b pnbs atr fuel ((k : ℤ) + 1)
        (activeIter tf b pnbs atr i k) fin bm := by
  intro fuel
  induction fuel with
  | zero =>
    intro k fin bm
    rfl
  | succ n ih =>
    intro k fin bm
    by_cases hg : activeIter tf b pnbs atr i k = [] ∨ ¬ (k : ℤ) + 1 ≤ ns
    · simp only [searchLoop]
      rw [if_pos hg, if_pos hg]
    · have hg' := hg
      push_neg at hg'
      obtain ⟨hne, hle⟩ := hg'
      have hproc : (stepCandidates tf pnbs atr (activeIter tf b pnbs atr i k)).foldl
          (processCandidate true ns ((k : ℤ) + 1)) (fin, ([] : List (ℕ × List State))) =
          (stepCandidates tf pnbs atr (activeIter tf b pnbs atr i k)).foldl
          (processCandidate false ns ((k : ℤ) + 1)) (fin, []) := by
        apply processFold_keep_eq
        intro hsn c hc
        have hk : (ns - 1).toNat = k := by omega
        rw [hk] at H
        exact H hne c hc
      have hstep : searchStep tf true ns ((k : ℤ) + 1) b pnbs atr
          (activeIter tf b pnbs atr i k) fin bm =
          searchStep tf false ns ((k : ℤ) + 1) b pnbs atr
          (activeIter tf b pnbs atr i k) fin bm := by
        unfold searchStep
        dsimp only
        rw [hproc]
      have hst : (searchStep tf false ns ((k : ℤ) + 1) b pnbs atr
          (activeIter tf b pnbs atr i k) fin bm).1 = activeIter tf b pnbs atr i (k + 1) := by
        rw [searchStep_states, activeIter_succ_ne tf b pnbs atr i k hne]
      simp only [searchLoop]
      rw [if_neg hg, if_neg hg, hstep, hst]
      have hcast : ((k : ℤ) + 1) + 1 = (((k + 1 : ℕ)) : ℤ) + 1 := by
        push_cast
        ring
      rw [hcast]
      exact ih (k + 1) _ _

/-- C6: if every explored path terminates before `num_steps` — formalised as:
all candidates the policy would produce at step `num_steps` (from the
keep-independent active beam entering that step, when non-empty) are finished,
which in particular holds when the beam is already exhausted — then the value
of `keep_final_unfinished_states` does not change the result of `search` at
all. -/
theorem keep_final_no_effect (e : BeamSearch) (ns : ℤ) (i : State) (tf : TransitionFunction)
    (H : activeIter tf e._beam_size e._per_node_beam_size e._allowed_transitions i
        (ns - 1).toNat ≠ [] →
      ∀ c ∈ stepCandidates tf e._per_node_beam_size e._allowed_transitions
          (activeIter tf e._beam_size e._per_node_beam_size e._allowed_transitions i
            (ns - 1).toNat), c.finished = true) :
    e.search ns i tf true = e.search ns i tf false := by
  have hrun : searchRun e ns i tf true = searchRun e ns i tf false := by
    unfold searchRun
    have h1 : (1 : ℤ) = ((0 : ℕ) : ℤ) + 1 := by norm_num
    rw [h1]
    have h2 : ([i] : List State) =
        activeIter tf e._beam_size e._per_node_beam_size e._allowed_transitions i 0 := rfl
    rw [h2]
    exact searchLoop_keep_eq tf ns e._beam_size e._per_node_beam_size e._allowed_transitions
      i H ns.toNat 0 [] (e.beams.map fun _ => [])
  unfold BeamSearch.search searchFinishedStates searchBeams
  rw [hrun]

/-- Witness for C6: with a policy that finishes every path at step 1 and
`num_steps = 2`, both settings of `keep_final_unfinished_states` return the
same output. -/
theorem keep_final_no_effect_witness :
    (BeamSearch.init 2 none none false).search 2 st0 tfFinish true =
      (BeamSearch.init 2 none none false).search 2 st0 tfFinish false :=
  keep_final_no_effect (BeamSearch.init 2 none none false) 2 st0 tfFinish
    (fun h => (h (by decide)).elim)

end AllenNLP
